import Mathlib

/-!
# AgentShield change-capture and snapshot/restore engine: a shallow embedding

This file embeds the core of the agentshield repository in Lean 4 and proves
properties of it.  Paths and byte strings are modelled as `List Char` and
`List Nat`; the filesystem is modelled as finite maps from paths to contents.

Components embedded, with their sources:
* exclusion matcher (`matchesPattern`, `patternToRegex`) from `src/utils.ts`;
* snapshot store, restore engine and retention (`BackupManager.createSnapshot`,
  `restoreSnapshot`, `cleanOldSnapshots`) from `src/backup.ts`;
* hardlink-vs-copy backup strategy (`smartBackup`, `createHardlinkBackup`,
  `backupFromBuffer`) from `src/hardlink.ts`;
* watcher rename reconciliation (`handleFileDelete`, `handlePotentialRename`,
  `handleFileChange`, `addPendingChange`) from `src/watcher.ts`.
-/

namespace AgentShield

/-- A workspace-relative path, as a list of characters. -/
abbrev Path := List Char

/-- File contents, as a list of bytes. -/
abbrev Bytes := List Nat

/-! ## Exclusion matcher (`src/utils.ts`)

`matchesPattern` normalises backslashes to slashes and tries each pattern:
patterns containing `*` go through `patternToRegex`, other patterns use the
four-way literal test.  The regex built by `patternToRegex` is the
concatenation of fragments — each literal character matches itself (the JS
code escapes regex metacharacters, so they are literal; patterns are assumed
not to contain an unescaped `?`), `**/` becomes `(.*/)?`, `**` becomes `.*`
and `*` becomes `[^/]*` — wrapped in `(^|/) … ($|/|$)`.  We embed the
fragments as tokens with their matching semantics, produced by the same three
rewriting passes the JS code performs. -/

/-- A fragment of the regex built by `patternToRegex`. -/
inductive Tok where
  /-- the `(.*/)?` fragment produced from `**/` -/
  | gsSlash : Tok
  /-- the `.*` fragment produced from `**` -/
  | gs : Tok
  /-- the `[^/]*` fragment produced from `*` -/
  | starNS : Tok
  /-- a literal character -/
  | lit : Char → Tok
deriving DecidableEq, Repr

/-- First rewriting pass of `patternToRegex`: each occurrence of `**/`
(scanned left to right, non-overlapping) becomes the `(.*/)?` fragment. -/
def pass1 : List Char → List Tok
  | '*' :: '*' :: '/' :: rest => Tok.gsSlash :: pass1 rest
  | c :: rest => Tok.lit c :: pass1 rest
  | [] => []

/-- Second rewriting pass of `patternToRegex`: each remaining occurrence of
`**` becomes the `.*` fragment. -/
def pass2 : List Tok → List Tok
  | Tok.lit '*' :: Tok.lit '*' :: rest => Tok.gs :: pass2 rest
  | t :: rest => t :: pass2 rest
  | [] => []

/-- Third rewriting pass of `patternToRegex`: each remaining `*` becomes the
`[^/]*` fragment. -/
def pass3 : List Tok → List Tok :=
  List.map (fun t => if t = Tok.lit '*' then Tok.starNS else t)

/-- The token list of the regex `patternToRegex` builds for a pattern. -/
def translate (pat : List Char) : List Tok :=
  pass3 (pass2 (pass1 pat))

/-- Does one regex fragment match a string? -/
def tokMatch : Tok → List Char → Bool
  | Tok.lit c, s => s == [c]
  | Tok.starNS, s => s.all (fun c => c != '/')
  | Tok.gs, _ => true
  | Tok.gsSlash, s => s == [] || s.reverse.head? == some '/'

/-- The test `anySplit p q s` holds when `s` splits as `a ++ b` with `p a` and `q b`. -/
def anySplit (p q : List Char → Bool) (s : List Char) : Bool :=
  (List.range (s.length + 1)).any fun n => p (s.take n) && q (s.drop n)

/-- Does a concatenation of regex fragments match a string exactly? -/
def toksMatch : List Tok → List Char → Bool
  | [], s => s == []
  | t :: ts, s => anySplit (tokMatch t) (toksMatch ts) s

/-- The `(^|/)` prefix of the regex: the part of the string before the
fragment match is empty or ends in a separator. -/
def boundL (u : List Char) : Bool := u == [] || u.reverse.head? == some '/'

/-- The `($|/|$)` suffix of the regex: the part of the string after the
fragment match is empty or starts with a separator. -/
def boundR (w : List Char) : Bool := w == [] || w.head? == some '/'

/-- The `RegExp.test` search of the regex built by `patternToRegex`: an unanchored
search for `(^|/) fragments ($|/|$)`. -/
def rxTest (toks : List Tok) (s : List Char) : Bool :=
  anySplit boundL (anySplit (toksMatch toks) boundR) s

/-- The `String.includes` test: does `pat` occur as a contiguous substring of `s`? -/
def isInfix (pat : List Char) : List Char → Bool
  | [] => pat.isPrefixOf []
  | c :: t => pat.isPrefixOf (c :: t) || isInfix pat t

/-- The literal (no `*`) branch of `matchesPattern`: exact equality, prefix
followed by a separator, middle segment, or suffix preceded by a separator. -/
def litMatch (pat s : List Char) : Bool :=
  s == pat || (pat ++ ['/']).isPrefixOf s
    || isInfix (('/' :: pat) ++ ['/']) s || ('/' :: pat).isSuffixOf s

/-- Backslash-to-slash normalisation applied by `matchesPattern`. -/
def normalizeSep (s : List Char) : List Char :=
  s.map fun c => if c = '\\' then '/' else c

/-- Embeds `matchesPattern(filePath, patterns)` from `src/utils.ts`. -/
def matchesPattern (filePath : List Char) (patterns : List (List Char)) : Bool :=
  let normalizedPath := normalizeSep filePath
  patterns.any fun pat =>
    if pat.contains '*' then rxTest (translate pat) normalizedPath
    else litMatch pat normalizedPath

/-! ## Snapshot store, restore engine and retention (`src/backup.ts`)

The workspace and the blob store (the `snapshots/` directory of the vault)
are modelled as maps from paths to file contents.  `BackupManager` methods
become functions threading `(index, blobs, workspace)` explicitly; the index
returned by an operation is the index as persisted after it. -/

/-- A map from paths to file contents, modelling a directory of files. -/
abbrev FileMap := Path → Option Bytes

/-- Write (create or overwrite) a file in a `FileMap`. -/
def mapSet (m : FileMap) (p : Path) (b : Bytes) : FileMap :=
  fun q => if q = p then some b else m q

/-- Node `unlinkSync`: remove a file from a `FileMap`. -/
def mapRemove (m : FileMap) (p : Path) : FileMap :=
  fun q => if q = p then none else m q

/-- The type `FileEventType` from `src/backup.ts`. -/
inductive FileEventType where
  | change
  | delete
  | rename
  | create
deriving DecidableEq, Repr

/-- The structure `SnapshotFile`: a file record in a snapshot. -/
structure SnapshotFile where
  path : Path
  backupPath : Path
  size : Nat
  eventType : FileEventType
  renamedTo : Option Path
deriving DecidableEq, Repr

/-- The structure `Snapshot`: a version point on the timeline. -/
structure Snapshot where
  id : List Char
  timestamp : Int
  files : List SnapshotFile
  message : Option (List Char)
deriving DecidableEq, Repr

/-- The structure `BackupIndex`: the persisted index structure. -/
structure BackupIndex where
  version : Nat
  snapshots : List Snapshot
deriving DecidableEq, Repr

/-- One element of the `files` argument of `createSnapshot`. -/
structure PendingFile where
  relativePath : Path
  eventType : FileEventType
  content : Option Bytes
  renamedTo : Option Path
deriving DecidableEq, Repr

/-- The escaping `relativePath.replace(/[/\\]/g, "__")`. -/
def safeFilename (p : Path) : Path :=
  p.flatMap fun c => if c = '/' || c = '\\' then ['_', '_'] else [c]

/-- The snapshot id `snap_<timestamp>`. -/
def snapIdOf (t : Int) : List Char :=
  "snap_".toList ++ (toString t).toList

/-- The blob filename `<timestamp>_<safeFilename>`. -/
def backupFilenameOf (t : Int) (p : Path) : Path :=
  (toString t).toList ++ '_' :: safeFilename p

/-- The loop body of `BackupManager.createSnapshot`: skip excluded paths;
for `delete`, `rename` and `change` write the provided pre-event content to
the blob store (recording its length as the entry size); for `create` record
the path with size `0` and no I/O; then append the `SnapshotFile` entry. -/
def createSnapshotStep (excludePatterns : List Path) (timestamp : Int)
    (acc : List SnapshotFile × FileMap) (f : PendingFile) :
    List SnapshotFile × FileMap :=
  let (entries, blobs) := acc
  if matchesPattern f.relativePath excludePatterns then (entries, blobs)
  else
    let backupFilename := backupFilenameOf timestamp f.relativePath
    let (fileSize, blobs') :=
      match f.eventType with
      | .delete | .rename | .change =>
        match f.content with
        | some c => (c.length, mapSet blobs backupFilename c)
        | none => (0, blobs)
      | .create => (0, blobs)
    (entries ++ [⟨f.relativePath, backupFilename, fileSize, f.eventType, f.renamedTo⟩],
      blobs')

/-- Embeds `BackupManager.createSnapshot`: package a batch of file changes into one
snapshot.  Returns the snapshot (or `null`), the index as persisted
afterwards, and the blob store afterwards. -/
def createSnapshot (excludePatterns : List Path) (idx : BackupIndex)
    (blobs : FileMap) (now : Int) (files : List PendingFile)
    (message : Option (List Char)) :
    Option Snapshot × BackupIndex × FileMap :=
  if files = [] then (none, idx, blobs)
  else
    let timestamp := now
    let (snapshotFiles, blobs') :=
      files.foldl (createSnapshotStep excludePatterns timestamp) ([], blobs)
    if snapshotFiles = [] then (none, idx, blobs')
    else
      let snap : Snapshot := ⟨snapIdOf timestamp, timestamp, snapshotFiles, message⟩
      (some snap, ⟨idx.version, idx.snapshots ++ [snap]⟩, blobs')

/-- Embeds `BackupManager.getSnapshotById`. -/
def getSnapshotById (idx : BackupIndex) (snapshotId : List Char) : Option Snapshot :=
  idx.snapshots.find? fun s => s.id = snapshotId

/-- The counts returned by `restoreSnapshot`. -/
structure RestoreResult where
  restored : Nat
  failed : Nat
  deleted : Nat
deriving DecidableEq, Repr

/-- The field names of the object literal `restoreSnapshot` returns
(`return { restored, failed, deleted }`). -/
def restoreResultFields : List (List Char) :=
  ["restored".toList, "failed".toList, "deleted".toList]

/-- The loop body of `BackupManager.restoreSnapshot`, reversing one
`SnapshotFile` entry against the live workspace. -/
def restoreEntry (blobs : FileMap) (acc : RestoreResult × FileMap)
    (f : SnapshotFile) : RestoreResult × FileMap :=
  let (counts, ws) := acc
  match f.eventType with
  | .delete =>
    match blobs f.backupPath with
    | some b => ({ counts with restored := counts.restored + 1 }, mapSet ws f.path b)
    | none => ({ counts with failed := counts.failed + 1 }, ws)
  | .rename =>
    match f.renamedTo with
    | some r =>
      let acc1 :=
        if (ws r).isSome then
          ({ counts with deleted := counts.deleted + 1 }, mapRemove ws r)
        else (counts, ws)
      match blobs f.backupPath with
      | some b => ({ acc1.1 with restored := acc1.1.restored + 1 }, mapSet acc1.2 f.path b)
      | none => ({ acc1.1 with failed := acc1.1.failed + 1 }, acc1.2)
    | none => (counts, ws)
  | .create =>
    if (ws f.path).isSome then
      ({ counts with deleted := counts.deleted + 1 }, mapRemove ws f.path)
    else (counts, ws)
  | .change =>
    match blobs f.backupPath with
    | some b => ({ counts with restored := counts.restored + 1 }, mapSet ws f.path b)
    | none => ({ counts with failed := counts.failed + 1 }, ws)

/-- Embeds `BackupManager.restoreSnapshot`: batch-restore all files of a snapshot.
The index is returned unchanged: the method never mutates or rewrites it. -/
def restoreSnapshot (idx : BackupIndex) (blobs : FileMap) (ws : FileMap)
    (snapshotId : List Char) : RestoreResult × BackupIndex × FileMap :=
  match getSnapshotById idx snapshotId with
  | none => (⟨0, 0, 0⟩, idx, ws)
  | some snap =>
    let (counts, ws') := snap.files.foldl (restoreEntry blobs) (⟨0, 0, 0⟩, ws)
    (counts, idx, ws')

/-- A single workspace write performed by the restore engine: every branch
of `restoreEntry` only ever writes blob contents or removes paths, with
contents and conditions read from the snapshot and blob store, never from
the workspace being restored. -/
inductive WsOp where
  | set (p : Path) (b : Bytes)
  | del (p : Path)
deriving DecidableEq, Repr

/-- The path a workspace write touches. -/
def opPath : WsOp → Path
  | .set p _ => p
  | .del p => p

/-- Apply one workspace write. -/
def applyOp (ws : FileMap) : WsOp → FileMap
  | .set p b => mapSet ws p b
  | .del p => mapRemove ws p

/-- Apply a sequence of workspace writes. -/
def applyOps (ops : List WsOp) (ws : FileMap) : FileMap :=
  ops.foldl applyOp ws

/-- The workspace writes `restoreEntry` performs for one snapshot entry
(the conditional `unlinkSync` of an absent path is the identity, so removals
are recorded unconditionally). -/
def entryOps (blobs : FileMap) (f : SnapshotFile) : List WsOp :=
  match f.eventType with
  | .delete | .change =>
    match blobs f.backupPath with
    | some b => [.set f.path b]
    | none => []
  | .rename =>
    match f.renamedTo with
    | some r =>
      .del r :: (match blobs f.backupPath with
        | some b => [.set f.path b]
        | none => [])
    | none => []
  | .create => [.del f.path]

/-- The counts returned by `cleanOldSnapshots`. -/
structure CleanResult where
  removed : Nat
  freedBytes : Nat
deriving DecidableEq, Repr

/-- The blob-deletion loop of `cleanOldSnapshots`: for each file entry of a
snapshot being removed, delete its blob if present and accumulate its
on-disk size. -/
def deleteSnapshotBlobs (acc : FileMap × Nat) (files : List SnapshotFile) :
    FileMap × Nat :=
  files.foldl
    (fun (acc : FileMap × Nat) f =>
      match acc.1 f.backupPath with
      | some b => (mapRemove acc.1 f.backupPath, acc.2 + b.length)
      | none => acc)
    acc

/-- The loop body of `cleanOldSnapshots`: a snapshot older than the cutoff
has its blobs deleted and is dropped; a surviving snapshot is kept. -/
def cleanStep (cutoff : Int) (acc : List Snapshot × Nat × FileMap × Nat)
    (s : Snapshot) : List Snapshot × Nat × FileMap × Nat :=
  let (toKeep, removed, blobs, freed) := acc
  if s.timestamp < cutoff then
    let (blobs', freed') := deleteSnapshotBlobs (blobs, freed) s.files
    (toKeep, removed + 1, blobs', freed')
  else (toKeep ++ [s], removed, blobs, freed)

/-- Embeds `BackupManager.cleanOldSnapshots`: partition snapshots by
`timestamp < now − maxAgeDays`, delete the blobs of old snapshots, and
rewrite the index with only the surviving ones. -/
def cleanOldSnapshots (idx : BackupIndex) (blobs : FileMap) (now : Int)
    (maxAgeDays : Int) : CleanResult × BackupIndex × FileMap :=
  let cutoff : Int := now - maxAgeDays * (24 * 60 * 60 * 1000)
  let (toKeep, removed, blobs', freed) :=
    idx.snapshots.foldl (cleanStep cutoff) ([], 0, blobs, 0)
  (⟨removed, freed⟩, ⟨idx.version, toKeep⟩, blobs')

/-- The blob filenames of the snapshots older than the cutoff. -/
def oldBlobNames (snaps : List Snapshot) (cutoff : Int) : List Path :=
  ((snaps.filter fun s => s.timestamp < cutoff).flatMap (·.files)).map (·.backupPath)

/-- The total on-disk size of the named blobs that exist in the store. -/
def blobSizes (blobs : FileMap) (names : List Path) : Nat :=
  ((names.filterMap blobs).map List.length).sum

/-! ## Hardlink-vs-copy backup strategy (`src/hardlink.ts`)

The OS is modelled by a `FileMap` of regular files together with a device id
for every path, a per-device answer to whether `linkSync` succeeds there, and
the error code a failed link attempt reports.  A successful hardlink makes
the target share the source's content. -/

/-- The filesystem as seen by the hardlink module. -/
structure OsFs where
  /-- the regular files and their contents -/
  files : FileMap
  /-- the filesystem device a path lives on -/
  dev : Path → Nat
  /-- whether `linkSync` succeeds on a given device -/
  linkOk : Nat → Bool
  /-- the `errno` code a failed `linkSync` reports -/
  linkErrCode : List Char

/-- The type `BackupMethod` from `src/hardlink.ts`. -/
inductive BackupMethod where
  | hardlink
  | copy
deriving DecidableEq, Repr

/-- The structure `BackupResult` from `src/hardlink.ts`. -/
structure BackupResult where
  success : Bool
  method : BackupMethod
  error : Option (List Char)
deriving DecidableEq, Repr

/-- The module-level `hardlinkCapabilityCache`, a JS `Map` from device id to
verdict, as an insertion-ordered association list. -/
abbrev HCache := List (Nat × Bool)

/-- JS `Map.get` on the capability cache: first (only) entry for the key. -/
def cacheGet : HCache → Nat → Option Bool
  | [], _ => none
  | e :: c, d => if e.1 = d then some e.2 else cacheGet c d

/-- JS `Map.set` on the capability cache: update the entry for the key in
place, else append. -/
def cacheSet : HCache → Nat → Bool → HCache
  | [], d, b => [(d, b)]
  | e :: c, d, b => if e.1 = d then (d, b) :: c else e :: cacheSet c d b

/-- Node `path.dirname`: everything before the last separator
(`"."` when there is none, `"/"` for a top-level absolute path). -/
def dirname (p : Path) : Path :=
  match p.reverse.dropWhile (fun c => c ≠ '/') with
  | [] => ['.']
  | _ :: rest => if rest = [] then ['/'] else rest.reverse

/-- Embeds `copyFallback`: copy the source to the target, reporting method `copy`;
fails when the source cannot be read. -/
def copyFallback (fs : OsFs) (sourcePath targetPath : Path) (reason : List Char) :
    BackupResult × OsFs :=
  match fs.files sourcePath with
  | some c =>
    (⟨true, .copy, some ("Hardlink fallback: ".toList ++ reason)⟩,
      { fs with files := mapSet fs.files targetPath c })
  | none => (⟨false, .copy, some "Copy also failed".toList⟩, fs)

/-- Embeds `createHardlinkBackup(sourcePath, targetPath)`: hardlink the source to
the backup location, falling back to copy.  `plat` is `platform()`.  The
target directory has just been created by `mkdirSync`, so its `statSync`
yields its device id. -/
def createHardlinkBackup (plat : List Char) (fs : OsFs) (cache : HCache)
    (sourcePath targetPath : Path) : BackupResult × OsFs × HCache :=
  match fs.files sourcePath with
  | none => (⟨false, .copy, some "Source file does not exist".toList⟩, fs, cache)
  | some c =>
    let sourceDevice := fs.dev sourcePath
    let targetDirDevice := fs.dev (dirname targetPath)
    if sourceDevice ≠ targetDirDevice then
      let (r, fs') := copyFallback fs sourcePath targetPath
        "Cross-device link not permitted".toList
      (r, fs', cache)
    else if cacheGet cache sourceDevice = some false then
      let (r, fs') := copyFallback fs sourcePath targetPath
        "Hardlinks not supported (cached)".toList
      (r, fs', cache)
    else if fs.linkOk sourceDevice then
      (⟨true, .hardlink, none⟩,
        { fs with files := mapSet fs.files targetPath c },
        cacheSet cache sourceDevice true)
    else
      let cache' :=
        if plat = "win32".toList
            ∧ (fs.linkErrCode = "EPERM".toList ∨ fs.linkErrCode = "EXDEV".toList
              ∨ fs.linkErrCode = "ENOTSUP".toList) then
          cacheSet cache sourceDevice false
        else cache
      let (r, fs') := copyFallback fs sourcePath targetPath fs.linkErrCode
      (r, fs', cache')

/-- Embeds `backupFromBuffer(content, targetPath)`: write pre-read content to the
backup location; always method `copy`. -/
def backupFromBuffer (fs : OsFs) (content : Bytes) (targetPath : Path) :
    BackupResult × OsFs :=
  (⟨true, .copy, none⟩, { fs with files := mapSet fs.files targetPath content })

/-- Embeds `smartBackup(sourcePath, targetPath, eventType, content?, renamedTo?)`:
choose the backup mechanism per event type (see the decision table in
`src/hardlink.ts`). -/
def smartBackup (plat : List Char) (fs : OsFs) (cache : HCache)
    (sourcePath targetPath : Path) (eventType : FileEventType)
    (content : Option Bytes) (renamedTo : Option Path) :
    BackupResult × OsFs × HCache :=
  let bufferFallback : BackupResult × OsFs × HCache :=
    match content with
    | some c =>
      let (r, fs') := backupFromBuffer fs c targetPath
      (r, fs', cache)
    | none =>
      (⟨false, .copy, some "Source file does not exist and no content provided".toList⟩,
        fs, cache)
  match eventType with
  | .create => (⟨true, .hardlink, none⟩, fs, cache)
  | .delete =>
    if (fs.files sourcePath).isSome then
      createHardlinkBackup plat fs cache sourcePath targetPath
    else bufferFallback
  | .rename =>
    if (fs.files sourcePath).isSome then
      createHardlinkBackup plat fs cache sourcePath targetPath
    else
      match renamedTo with
      | some r =>
        if (fs.files r).isSome then createHardlinkBackup plat fs cache r targetPath
        else bufferFallback
      | none => bufferFallback
  | .change =>
    match content with
    | some c =>
      let (r, fs') := backupFromBuffer fs c targetPath
      (r, fs', cache)
    | none =>
      match fs.files sourcePath with
      | some fileContent =>
        let (r, fs') := backupFromBuffer fs fileContent targetPath
        (r, fs', cache)
      | none =>
        (⟨false, .copy, some "No content to backup for change event".toList⟩, fs, cache)

/-! ## Watcher rename reconciliation (`src/watcher.ts`)

The watcher's per-session state is embedded with JS `Map`s as
insertion-ordered association lists.  `lock` is `existsSync(restoreLockPath)`
and `fs` is the workspace contents at the time of the handler run; timers
(debounce, grace window, batch window) are outside the model, so
`handleFileDelete` is split into its immediate effect and its grace-window
callback. -/

/-- JS `Map.get` on an insertion-ordered association list keyed by path: the
first (only) entry for the key. -/
def jsMapGet {α : Type} : List (Path × α) → Path → Option α
  | [], _ => none
  | e :: m, k => if e.1 = k then some e.2 else jsMapGet m k

/-- JS `Map.set`: update the entry for the key in place, else append. -/
def jsMapSet {α : Type} : List (Path × α) → Path → α → List (Path × α)
  | [], k, v => [(k, v)]
  | e :: m, k, v => if e.1 = k then (k, v) :: m else e :: jsMapSet m k v

/-- JS `Map.delete`. -/
def jsMapDelete {α : Type} (m : List (Path × α)) (k : Path) : List (Path × α) :=
  m.filter fun e => e.1 ≠ k

/-- The structure `PendingChange` from `src/watcher.ts`. -/
structure PendingChange where
  relativePath : Path
  eventType : FileEventType
  content : Option Bytes
  renamedTo : Option Path
deriving DecidableEq, Repr

/-- The mutable state of `ShieldWatcher` relevant to event reconciliation.
Tracked files and pending-deletion entries carry `{content, timestamp}`. -/
structure WatcherState where
  trackedFiles : List (Path × (Bytes × Int))
  pendingRenames : List (Path × (Bytes × Int))
  recentlyRenamed : List Path
  pendingChanges : List (Path × PendingChange)
deriving Repr

/-- Embeds `addPendingChange`: ignored under the restore lock; otherwise dedup by
path, keeping only the latest pending change per file. -/
def addPendingChange (lock : Bool) (st : WatcherState) (change : PendingChange) :
    WatcherState :=
  if lock then st
  else { st with pendingChanges := jsMapSet st.pendingChanges change.relativePath change }

/-- Embeds `trackFile`: record the file's current on-disk bytes in the tracked set. -/
def trackFile (fs : FileMap) (now : Int) (st : WatcherState) (relativePath : Path) :
    WatcherState :=
  match fs relativePath with
  | some c => { st with trackedFiles := jsMapSet st.trackedFiles relativePath (c, now) }
  | none => st

/-- Embeds `handleFileChange`: skip recently-renamed targets; capture the tracked
pre-event bytes, re-track the file, and enqueue the pending change. -/
def handleFileChange (lock : Bool) (fs : FileMap) (now : Int) (st : WatcherState)
    (relativePath : Path) (eventType : FileEventType) : WatcherState :=
  if relativePath ∈ st.recentlyRenamed then st
  else
    let content := (jsMapGet st.trackedFiles relativePath).map (·.1)
    let st1 := trackFile fs now st relativePath
    addPendingChange lock st1 ⟨relativePath, eventType, content, none⟩

/-- The immediate effect of `handleFileDelete`: capture the path's last known
bytes (from the tracked set, or failing that from
`getLatestBackupContent`, passed in as `latestBackup`) into a
pending-deletion entry. -/
def handleFileDelete (latestBackup : Option (Bytes × Int)) (st : WatcherState)
    (relativePath : Path) : WatcherState :=
  match jsMapGet st.trackedFiles relativePath with
  | some (c, t) =>
    { st with pendingRenames := jsMapSet st.pendingRenames relativePath (c, t) }
  | none =>
    match latestBackup with
    | some (c, t) =>
      { st with pendingRenames := jsMapSet st.pendingRenames relativePath (c, t) }
    | none => st

/-- The grace-window callback of `handleFileDelete`: under the restore lock
drop the entry; otherwise emit the `delete` pending change and stop tracking
the path. -/
def handleFileDeleteTimeout (lock : Bool) (st : WatcherState) (relativePath : Path) :
    WatcherState :=
  if lock then
    { st with pendingRenames := jsMapDelete st.pendingRenames relativePath,
              trackedFiles := jsMapDelete st.trackedFiles relativePath }
  else
    match jsMapGet st.pendingRenames relativePath with
    | some (c, _) =>
      let st1 := { st with pendingRenames := jsMapDelete st.pendingRenames relativePath }
      let st2 := addPendingChange lock st1 ⟨relativePath, .delete, some c, none⟩
      { st2 with trackedFiles := jsMapDelete st2.trackedFiles relativePath }
    | none => { st with trackedFiles := jsMapDelete st.trackedFiles relativePath }

/-- Embeds `handlePotentialRename(newPath)`: skip recently-renamed targets; pair the
first pending-deletion entry for a different path with the appeared path,
emitting a `rename` pending change and tracking the new path; with no entry
to pair, route to `handleFileChange`. -/
def handlePotentialRename (lock : Bool) (fs : FileMap) (now : Int)
    (st : WatcherState) (newPath : Path) : WatcherState :=
  if newPath ∈ st.recentlyRenamed then st
  else
    match st.pendingRenames.find? (fun e => e.1 ≠ newPath) with
    | some (oldPath, (c, _)) =>
      let st1 := { st with
        pendingRenames := jsMapDelete st.pendingRenames oldPath,
        trackedFiles := jsMapDelete st.trackedFiles oldPath }
      let st2 := addPendingChange lock st1 ⟨oldPath, .rename, some c, some newPath⟩
      let st3 := { st2 with recentlyRenamed := st2.recentlyRenamed ++ [newPath] }
      trackFile fs now st3 newPath
    | none => handleFileChange lock fs now st newPath .change

/-! ## Helper lemmas -/

theorem mapSet_self (m : FileMap) (p : Path) (b : Bytes) : mapSet m p b p = some b := by
  simp [mapSet]

theorem mapSet_ne (m : FileMap) (p q : Path) (b : Bytes) (h : q ≠ p) :
    mapSet m p b q = m q := by
  simp [mapSet, h]

theorem mapRemove_self (m : FileMap) (p : Path) : mapRemove m p p = none := by
  simp [mapRemove]

theorem mapRemove_ne (m : FileMap) (p q : Path) (h : q ≠ p) : mapRemove m p q = m q := by
  simp [mapRemove, h]

/-! ## Helper lemmas (C5) -/

theorem blobSizes_congr (names : List Path) (m₁ m₂ : FileMap)
    (h : ∀ bp ∈ names, m₁ bp = m₂ bp) :
    blobSizes m₁ names = blobSizes m₂ names := by
  unfold blobSizes
  rw [List.filterMap_congr h]

theorem blobSizes_append (m : FileMap) (a b : List Path) :
    blobSizes m (a ++ b) = blobSizes m a + blobSizes m b := by
  simp [blobSizes, List.filterMap_append]

theorem deleteSnapshotBlobs_spec (files : List SnapshotFile) :
    ∀ (blobs : FileMap) (freed : Nat), (files.map (·.backupPath)).Nodup →
      (deleteSnapshotBlobs (blobs, freed) files).2
          = freed + blobSizes blobs (files.map (·.backupPath))
      ∧ (∀ bp ∈ files.map (·.backupPath),
          (deleteSnapshotBlobs (blobs, freed) files).1 bp = none)
      ∧ (∀ bp, bp ∉ files.map (·.backupPath) →
          (deleteSnapshotBlobs (blobs, freed) files).1 bp = blobs bp) := by
  induction files with
  | nil =>
    intro blobs freed _
    exact ⟨by simp [deleteSnapshotBlobs, blobSizes], by simp, fun bp _ => rfl⟩
  | cons f l ih =>
    intro blobs freed hnodup
    have hnotmem : f.backupPath ∉ l.map (·.backupPath) :=
      (List.nodup_cons.mp (by simpa using hnodup)).1
    have hnodup' : (l.map (·.backupPath)).Nodup :=
      (List.nodup_cons.mp (by simpa using hnodup)).2
    rcases hb : blobs f.backupPath with _ | b
    · have hstep : deleteSnapshotBlobs (blobs, freed) (f :: l)
          = deleteSnapshotBlobs (blobs, freed) l := by
        simp [deleteSnapshotBlobs, List.foldl_cons, hb]
      obtain ⟨h1, h2, h3⟩ := ih blobs freed hnodup'
      refine ⟨?_, ?_, ?_⟩
      · rw [hstep, h1]
        simp [blobSizes, List.filterMap_cons, hb]
      · intro bp hbp
        rw [List.map_cons] at hbp
        rcases List.mem_cons.mp hbp with rfl | hbp'
        · by_cases hmem : f.backupPath ∈ l.map (·.backupPath)
          · rw [hstep]; exact h2 _ hmem
          · rw [hstep, h3 _ hmem, hb]
        · rw [hstep]; exact h2 _ hbp'
      · intro bp hbp
        rw [List.map_cons] at hbp
        have hbp2 : bp ∉ l.map (·.backupPath) := fun h => hbp (List.mem_cons_of_mem _ h)
        rw [hstep]; exact h3 _ hbp2
    · have hstep : deleteSnapshotBlobs (blobs, freed) (f :: l)
          = deleteSnapshotBlobs (mapRemove blobs f.backupPath, freed + b.length) l := by
        simp [deleteSnapshotBlobs, List.foldl_cons, hb]
      obtain ⟨h1, h2, h3⟩ :=
        ih (mapRemove blobs f.backupPath) (freed + b.length) hnodup'
      refine ⟨?_, ?_, ?_⟩
      · rw [hstep, h1]
        have hagree : blobSizes (mapRemove blobs f.backupPath) (l.map (·.backupPath))
            = blobSizes blobs (l.map (·.backupPath)) :=
          blobSizes_congr _ _ _ fun bp hbp =>
            mapRemove_ne blobs f.backupPath bp fun h => hnotmem (h ▸ hbp)
        rw [hagree]
        simp only [List.map_cons, blobSizes, List.filterMap_cons, hb, List.map_cons,
          List.sum_cons]
        omega
      · intro bp hbp
        rw [List.map_cons] at hbp
        rcases List.mem_cons.mp hbp with rfl | hbp'
        · rw [hstep, h3 _ hnotmem, mapRemove_self]
        · rw [hstep]; exact h2 _ hbp'
      · intro bp hbp
        rw [List.map_cons] at hbp
        have hbp1 : bp ≠ f.backupPath := fun h => hbp (h ▸ List.mem_cons_self _ _)
        have hbp2 : bp ∉ l.map (·.backupPath) := fun h => hbp (List.mem_cons_of_mem _ h)
        rw [hstep, h3 _ hbp2, mapRemove_ne _ _ _ hbp1]

theorem cleanFold_spec (cutoff : Int) (snaps : List Snapshot) :
    ∀ (keep₀ : List Snapshot) (rem₀ : Nat) (blobs : FileMap) (fr₀ : Nat),
      (oldBlobNames snaps cutoff).Nodup →
      (snaps.foldl (cleanStep cutoff) (keep₀, rem₀, blobs, fr₀)).1
          = keep₀ ++ snaps.filter (fun s => ¬ s.timestamp < cutoff)
      ∧ (snaps.foldl (cleanStep cutoff) (keep₀, rem₀, blobs, fr₀)).2.1
          = rem₀ + (snaps.filter (fun s => s.timestamp < cutoff)).length
      ∧ (snaps.foldl (cleanStep cutoff) (keep₀, rem₀, blobs, fr₀)).2.2.2
          = fr₀ + blobSizes blobs (oldBlobNames snaps cutoff)
      ∧ (∀ bp ∈ oldBlobNames snaps cutoff,
          (snaps.foldl (cleanStep cutoff) (keep₀, rem₀, blobs, fr₀)).2.2.1 bp = none)
      ∧ (∀ bp, bp ∉ oldBlobNames snaps cutoff →
          (snaps.foldl (cleanStep cutoff) (keep₀, rem₀, blobs, fr₀)).2.2.1 bp
            = blobs bp) := by
  induction snaps with
  | nil =>
    intro keep₀ rem₀ blobs fr₀ _
    exact ⟨by simp, by simp, by simp [oldBlobNames, blobSizes], by simp [oldBlobNames],
      fun bp _ => rfl⟩
  | cons s l ih =>
    intro keep₀ rem₀ blobs fr₀ hnodup
    by_cases ht : s.timestamp < cutoff
    · have hnames : oldBlobNames (s :: l) cutoff
          = s.files.map (·.backupPath) ++ oldBlobNames l cutoff := by
        simp [oldBlobNames, List.filter_cons, ht]
      rw [hnames] at hnodup
      obtain ⟨hA, hB, hdisj⟩ := List.nodup_append.mp hnodup
      have hstep : (s :: l).foldl (cleanStep cutoff) (keep₀, rem₀, blobs, fr₀)
          = l.foldl (cleanStep cutoff)
              (keep₀, rem₀ + 1, (deleteSnapshotBlobs (blobs, fr₀) s.files).1,
                (deleteSnapshotBlobs (blobs, fr₀) s.files).2) := by
        simp [List.foldl_cons, cleanStep, ht]
      obtain ⟨d1, d2, d3⟩ := deleteSnapshotBlobs_spec s.files blobs fr₀ hA
      obtain ⟨i1, i2, i3, i4, i5⟩ :=
        ih keep₀ (rem₀ + 1) (deleteSnapshotBlobs (blobs, fr₀) s.files).1
          (deleteSnapshotBlobs (blobs, fr₀) s.files).2 hB
      refine ⟨?_, ?_, ?_, ?_, ?_⟩
      · rw [hstep, i1, List.filter_cons]
        simp [ht]
      · rw [hstep, i2, List.filter_cons]
        simp [ht]
        omega
      · rw [hstep, i3, d1, hnames, blobSizes_append]
        have hagree : blobSizes (deleteSnapshotBlobs (blobs, fr₀) s.files).1
            (oldBlobNames l cutoff) = blobSizes blobs (oldBlobNames l cutoff) :=
          blobSizes_congr _ _ _ fun bp hbp =>
            d3 bp (List.disjoint_right.mp hdisj hbp)
        rw [hagree]
        omega
      · intro bp hbp
        rw [hnames] at hbp
        rcases List.mem_append.mp hbp with hbp' | hbp'
        · rw [hstep, i5 bp (List.disjoint_left.mp hdisj hbp'), d2 bp hbp']
        · rw [hstep]; exact i4 bp hbp'
      · intro bp hbp
        rw [hnames] at hbp
        have hbpA : bp ∉ s.files.map (·.backupPath) := fun h => hbp (List.mem_append.mpr (Or.inl h))
        have hbpB : bp ∉ oldBlobNames l cutoff := fun h => hbp (List.mem_append.mpr (Or.inr h))
        rw [hstep, i5 bp hbpB, d3 bp hbpA]
    · have hnames : oldBlobNames (s :: l) cutoff = oldBlobNames l cutoff := by
        simp [oldBlobNames, List.filter_cons, ht]
      rw [hnames] at hnodup
      have hstep : (s :: l).foldl (cleanStep cutoff) (keep₀, rem₀, blobs, fr₀)
          = l.foldl (cleanStep cutoff) (keep₀ ++ [s], rem₀, blobs, fr₀) := by
        simp [List.foldl_cons, cleanStep, ht]
      obtain ⟨i1, i2, i3, i4, i5⟩ := ih (keep₀ ++ [s]) rem₀ blobs fr₀ hnodup
      refine ⟨?_, ?_, ?_, ?_, ?_⟩
      · rw [hstep, i1, List.filter_cons]
        simp [ht]
      · rw [hstep, i2, List.filter_cons]
        simp [ht]
      · rw [hstep, i3, hnames]
      · intro bp hbp
        rw [hnames] at hbp
        rw [hstep]; exact i4 bp hbp
      · intro bp hbp
        rw [hnames] at hbp
        rw [hstep]; exact i5 bp hbp

/-! ## Helper lemmas (watcher maps) -/

theorem jsMapGet_set_self {α : Type} (m : List (Path × α)) (k : Path) (v : α) :
    jsMapGet (jsMapSet m k v) k = some v := by
  induction m with
  | nil => simp [jsMapGet, jsMapSet]
  | cons a m ih =>
    by_cases ha : a.1 = k <;> simp [jsMapGet, jsMapSet, ha, ih]

theorem jsMapGet_set_ne {α : Type} (m : List (Path × α)) (k q : Path) (v : α)
    (h : q ≠ k) : jsMapGet (jsMapSet m k v) q = jsMapGet m q := by
  induction m with
  | nil => simp [jsMapGet, jsMapSet, Ne.symm h]
  | cons a m ih =>
    by_cases ha : a.1 = k
    · have haq : ¬(a.1 = q) := by rw [ha]; exact fun hq => h hq.symm
      simp [jsMapGet, jsMapSet, ha, haq, Ne.symm h]
    · by_cases haq : a.1 = q <;>
        simp [jsMapGet, jsMapSet, ha, haq, ih, h, Ne.symm h]

theorem jsMapGet_delete_self {α : Type} (m : List (Path × α)) (k : Path) :
    jsMapGet (jsMapDelete m k) k = none := by
  induction m with
  | nil => simp [jsMapGet, jsMapDelete]
  | cons a m ih =>
    by_cases ha : a.1 = k <;>
      simp_all [jsMapGet, jsMapDelete, List.filter_cons, ha]

theorem jsMapGet_delete_ne {α : Type} (m : List (Path × α)) (k q : Path) (h : q ≠ k) :
    jsMapGet (jsMapDelete m k) q = jsMapGet m q := by
  induction m with
  | nil => simp [jsMapGet, jsMapDelete]
  | cons a m ih =>
    by_cases ha : a.1 = k
    · have haq : ¬(a.1 = q) := by rw [ha]; exact fun hq => h hq.symm
      simp_all [jsMapGet, jsMapDelete, List.filter_cons, haq]
    · by_cases haq : a.1 = q <;>
        simp_all [jsMapGet, jsMapDelete, List.filter_cons]

/-! ## C7: all-excluded batches produce no snapshot -/

theorem createSnapshotStep_excluded (pats : List Path) (t : Int)
    (acc : List SnapshotFile × FileMap) (f : PendingFile)
    (h : matchesPattern f.relativePath pats = true) :
    createSnapshotStep pats t acc f = acc := by
  unfold createSnapshotStep
  simp [h]

/-- C7: for every batch of pending changes in which zero entries survive
exclusion filtering (including the empty batch), `createSnapshot` returns
`null` and neither appends a snapshot to the index nor rewrites it; a
snapshot with zero surviving file entries is never persisted. -/
theorem createSnapshot_all_excluded (pats : List Path) (idx : BackupIndex)
    (blobs : FileMap) (now : Int) (files : List PendingFile)
    (msg : Option (List Char))
    (h : ∀ f ∈ files, matchesPattern f.relativePath pats = true) :
    createSnapshot pats idx blobs now files msg = (none, idx, blobs) := by
  unfold createSnapshot
  by_cases hnil : files = []
  · simp [hnil]
  · have hfold : files.foldl (createSnapshotStep pats now) ([], blobs) = ([], blobs) := by
      have : ∀ (l : List PendingFile) (acc : List SnapshotFile × FileMap),
          (∀ f ∈ l, matchesPattern f.relativePath pats = true) →
          l.foldl (createSnapshotStep pats now) acc = acc := by
        intro l
        induction l with
        | nil => intro acc _; rfl
        | cons f l ih =>
          intro acc hl
          rw [List.foldl_cons, createSnapshotStep_excluded pats now acc f
            (hl f (List.mem_cons_self ..))]
          exact ih acc fun g hg => hl g (List.mem_cons_of_mem f hg)
      exact this files ([], blobs) h
    simp [hnil, hfold]

theorem createSnapshot_all_excluded_witness :
    (∀ f ∈ [(⟨"node_modules/a.js".toList, .change, some [1, 2], none⟩ : PendingFile)],
      matchesPattern f.relativePath ["node_modules".toList] = true) ∧
    createSnapshot ["node_modules".toList] ⟨2, []⟩ (fun _ => none) 1000
      [⟨"node_modules/a.js".toList, .change, some [1, 2], none⟩] none
      = (none, ⟨2, []⟩, fun _ => none) :=
  ⟨by decide, createSnapshot_all_excluded _ _ _ _ _ _ (by decide)⟩

/-! ## C9: the counts returned by `restoreSnapshot` -/

/-- C9 counterexample: the object `restoreSnapshot` returns has no
`skipped` count, so the claim that it contains the four counts
`restored`, `failed`, `skipped`, `deleted` is false. -/
theorem restoreResult_no_skipped : "skipped".toList ∉ restoreResultFields := by
  decide

/-- C9 (amended): `restoreSnapshot(id)` returns exactly the three counts
`restored`, `failed` and `deleted`. -/
theorem restoreResult_three_counts :
    restoreResultFields = ["restored".toList, "failed".toList, "deleted".toList]
    ∧ ∀ (idx : BackupIndex) (blobs ws : FileMap) (sid : List Char),
        ∃ (r f d : Nat) (idx' : BackupIndex) (ws' : FileMap),
          restoreSnapshot idx blobs ws sid = (⟨r, f, d⟩, idx', ws') :=
  ⟨rfl, fun idx blobs ws sid =>
    ⟨(restoreSnapshot idx blobs ws sid).1.restored,
      (restoreSnapshot idx blobs ws sid).1.failed,
      (restoreSnapshot idx blobs ws sid).1.deleted,
      (restoreSnapshot idx blobs ws sid).2.1,
      (restoreSnapshot idx blobs ws sid).2.2, rfl⟩⟩

/-! ## C10: restoring an unknown snapshot id -/

/-- C10: for a snapshot id matching no snapshot in the index,
`restoreSnapshot` returns all-zero counts and leaves the workspace and the
index unchanged. -/
theorem restoreSnapshot_missing_id (idx : BackupIndex) (blobs ws : FileMap)
    (sid : List Char) (h : ∀ s ∈ idx.snapshots, s.id ≠ sid) :
    restoreSnapshot idx blobs ws sid = (⟨0, 0, 0⟩, idx, ws) := by
  unfold restoreSnapshot
  have hfind : getSnapshotById idx sid = none := by
    unfold getSnapshotById
    exact List.find?_eq_none.mpr fun s hs => by simpa using h s hs
  rw [hfind]

/-! ## C3: restoring a rename entry -/

/-- C3: for a snapshot file entry with `eventKind = rename` and a recorded
renamed-to path, `restoreSnapshot`'s per-entry step removes the renamed-to
path when it exists (counting it in `deleted`), copies the blob back to the
original path (counting it in `restored`), counts the entry in `failed`
exactly when the blob is missing, and treats a missing renamed-to path as no
error. -/
theorem restoreEntry_rename (blobs : FileMap) (counts : RestoreResult)
    (ws : FileMap) (f : SnapshotFile) (r : Path) (hev : f.eventType = .rename)
    (hr : f.renamedTo = some r) (hne : f.path ≠ r) :
    (restoreEntry blobs (counts, ws) f).1.restored
        = counts.restored + (if (blobs f.backupPath).isSome then 1 else 0)
    ∧ (restoreEntry blobs (counts, ws) f).1.failed
        = counts.failed + (if (blobs f.backupPath).isSome then 0 else 1)
    ∧ (restoreEntry blobs (counts, ws) f).1.deleted
        = counts.deleted + (if (ws r).isSome then 1 else 0)
    ∧ (restoreEntry blobs (counts, ws) f).2 r = none
    ∧ ∀ b, blobs f.backupPath = some b →
        (restoreEntry blobs (counts, ws) f).2 f.path = some b := by
  rcases hb : blobs f.backupPath with _ | b <;>
    rcases hws : ws r with _ | x <;>
      simp [restoreEntry, hev, hr, hb, hws, mapSet, mapRemove, hne, Ne.symm hne]

theorem restoreEntry_rename_witness :
    ((⟨['o'], ['b'], 1, .rename, some ['n']⟩ : SnapshotFile).eventType = .rename
      ∧ (⟨['o'], ['b'], 1, .rename, some ['n']⟩ : SnapshotFile).renamedTo = some ['n']
      ∧ (⟨['o'], ['b'], 1, .rename, some ['n']⟩ : SnapshotFile).path ≠ ['n'])
    ∧ ((restoreEntry (fun _ => some [104]) (⟨0, 0, 0⟩, fun _ => some [9])
          ⟨['o'], ['b'], 1, .rename, some ['n']⟩).1.restored
        = (⟨0, 0, 0⟩ : RestoreResult).restored
            + (if ((fun _ => some [104] : FileMap)
                  (⟨['o'], ['b'], 1, .rename, some ['n']⟩ : SnapshotFile).backupPath).isSome
              then 1 else 0)
      ∧ (restoreEntry (fun _ => some [104]) (⟨0, 0, 0⟩, fun _ => some [9])
          ⟨['o'], ['b'], 1, .rename, some ['n']⟩).1.failed
        = (⟨0, 0, 0⟩ : RestoreResult).failed
            + (if ((fun _ => some [104] : FileMap)
                  (⟨['o'], ['b'], 1, .rename, some ['n']⟩ : SnapshotFile).backupPath).isSome
              then 0 else 1)
      ∧ (restoreEntry (fun _ => some [104]) (⟨0, 0, 0⟩, fun _ => some [9])
          ⟨['o'], ['b'], 1, .rename, some ['n']⟩).1.deleted
        = (⟨0, 0, 0⟩ : RestoreResult).deleted
            + (if ((fun _ => some [9] : FileMap) ['n']).isSome then 1 else 0)
      ∧ (restoreEntry (fun _ => some [104]) (⟨0, 0, 0⟩, fun _ => some [9])
          ⟨['o'], ['b'], 1, .rename, some ['n']⟩).2 ['n'] = none
      ∧ ∀ b, (fun _ => some [104] : FileMap)
            (⟨['o'], ['b'], 1, .rename, some ['n']⟩ : SnapshotFile).backupPath = some b →
          (restoreEntry (fun _ => some [104]) (⟨0, 0, 0⟩, fun _ => some [9])
            ⟨['o'], ['b'], 1, .rename, some ['n']⟩).2
            (⟨['o'], ['b'], 1, .rename, some ['n']⟩ : SnapshotFile).path = some b) :=
  ⟨⟨rfl, rfl, by decide⟩,
    restoreEntry_rename (fun _ => some [104]) ⟨0, 0, 0⟩ (fun _ => some [9])
      ⟨['o'], ['b'], 1, .rename, some ['n']⟩ ['n'] rfl rfl (by decide)⟩

/-! ## Helper lemmas (C8): the `patternToRegex` rewriting passes -/

theorem pass1_cons_of_ne (c : Char) (rest : List Char) (h : c ≠ '*') :
    pass1 (c :: rest) = Tok.lit c :: pass1 rest := by
  rw [pass1.eq_def]
  split
  · next heq => injection heq with h1 _; exact absurd h1 h
  · next heq => injection heq with h1 h2; subst h1; subst h2; rfl
  · next heq => cases heq

theorem pass1_cons_star (rest : List Char) (h : ∀ r', rest ≠ '*' :: '/' :: r') :
    pass1 ('*' :: rest) = Tok.lit '*' :: pass1 rest := by
  rw [pass1.eq_def]
  split
  · next r' heq =>
    injection heq with _ h2
    exact absurd h2 (h r')
  · next heq => injection heq with h1 h2; subst h1; subst h2; rfl
  · next heq => cases heq

theorem pass1_cons_star2 (b : List Char) (h : b.head? ≠ some '/') :
    pass1 ('*' :: '*' :: b) = Tok.lit '*' :: pass1 ('*' :: b) := by
  rw [pass1.eq_def]
  split
  · next r' heq =>
    injection heq with _ h2
    injection h2 with _ h3
    exact absurd (h3 ▸ rfl) h
  · next heq => injection heq with h1 h2; subst h1; subst h2; rfl
  · next heq => cases heq

theorem pass1_append_lits (a : List Char) (rest : List Char) (ha : '*' ∉ a) :
    pass1 (a ++ rest) = a.map Tok.lit ++ pass1 rest := by
  induction a with
  | nil => rfl
  | cons c a ih =>
    have hc : c ≠ '*' := fun h => ha (h ▸ List.mem_cons_self _ _)
    have ha' : '*' ∉ a := fun h => ha (List.mem_cons_of_mem _ h)
    rw [List.cons_append, pass1_cons_of_ne c _ hc, ih ha', List.map_cons,
      List.cons_append]

theorem pass1_lits (a : List Char) (ha : '*' ∉ a) : pass1 a = a.map Tok.lit := by
  have := pass1_append_lits a [] ha
  simpa [show pass1 ([] : List Char) = [] from rfl] using this

theorem pass2_cons_of_ne (t : Tok) (ts : List Tok) (h : t ≠ Tok.lit '*') :
    pass2 (t :: ts) = t :: pass2 ts := by
  rw [pass2.eq_def]
  split
  · next heq => injection heq with h1 _; exact absurd h1 h
  · next heq => injection heq with h1 h2; subst h1; subst h2; rfl
  · next heq => cases heq

theorem pass2_cons_star (ts : List Tok) (h : ts.head? ≠ some (Tok.lit '*')) :
    pass2 (Tok.lit '*' :: ts) = Tok.lit '*' :: pass2 ts := by
  rw [pass2.eq_def]
  split
  · next heq =>
    injection heq with _ h2
    exact absurd (h2 ▸ rfl) h
  · next heq => injection heq with h1 h2; subst h1; subst h2; rfl
  · next heq => cases heq

theorem pass2_append_of (xs ts : List Tok) (h : Tok.lit '*' ∉ xs) :
    pass2 (xs ++ ts) = xs ++ pass2 ts := by
  induction xs with
  | nil => rfl
  | cons t xs ih =>
    have ht : t ≠ Tok.lit '*' := fun he => h (he ▸ List.mem_cons_self _ _)
    have h' : Tok.lit '*' ∉ xs := fun he => h (List.mem_cons_of_mem _ he)
    rw [List.cons_append, pass2_cons_of_ne t _ ht, ih h', List.cons_append]

theorem pass2_lits (xs : List Tok) (h : Tok.lit '*' ∉ xs) : pass2 xs = xs := by
  have := pass2_append_of xs [] h
  simpa [show pass2 ([] : List Tok) = [] from rfl] using this

theorem lit_star_notMem_map (a : List Char) (ha : '*' ∉ a) :
    Tok.lit '*' ∉ a.map Tok.lit := by
  intro h
  rcases List.mem_map.mp h with ⟨c, hc, he⟩
  injection he with he'
  exact ha (he' ▸ hc)

theorem pass3_append (xs ys : List Tok) : pass3 (xs ++ ys) = pass3 xs ++ pass3 ys :=
  List.map_append _ xs ys

theorem pass3_of_no_star (xs : List Tok) (h : Tok.lit '*' ∉ xs) : pass3 xs = xs := by
  unfold pass3
  rw [List.map_congr_left fun t ht => if_neg fun (he : t = Tok.lit '*') => h (he ▸ ht)]
  simp

theorem pass3_cons_star (ts : List Tok) :
    pass3 (Tok.lit '*' :: ts) = Tok.starNS :: pass3 ts := by
  simp [pass3]

theorem pass3_cons_gs (ts : List Tok) : pass3 (Tok.gs :: ts) = Tok.gs :: pass3 ts := by
  simp [pass3]

theorem pass3_cons_gsSlash (ts : List Tok) :
    pass3 (Tok.gsSlash :: ts) = Tok.gsSlash :: pass3 ts := by
  simp [pass3]

/-- The regex for `a*b` (single `*`, literal context) is
`a`, then `[^/]*`, then `b`. -/
theorem translate_single (a b : List Char) (ha : '*' ∉ a) (hb : '*' ∉ b) :
    translate (a ++ '*' :: b) = a.map Tok.lit ++ Tok.starNS :: b.map Tok.lit := by
  have hstar : ∀ r', b ≠ '*' :: '/' :: r' :=
    fun r' he => hb (he ▸ List.mem_cons_self _ _)
  have hhead : (b.map Tok.lit).head? ≠ some (Tok.lit '*') := by
    cases b with
    | nil => simp
    | cons c b =>
      have hc : c ≠ '*' := fun h => hb (h ▸ List.mem_cons_self _ _)
      simp [hc]
  unfold translate
  rw [pass1_append_lits a _ ha, pass1_cons_star b hstar, pass1_lits b hb,
    pass2_append_of _ _ (lit_star_notMem_map a ha), pass2_cons_star _ hhead,
    pass2_lits _ (lit_star_notMem_map b hb), pass3_append,
    pass3_of_no_star _ (lit_star_notMem_map a ha), pass3_cons_star,
    pass3_of_no_star _ (lit_star_notMem_map b hb)]

/-- The regex for `a**b` (`b` not starting with a separator) is
`a`, then `.*`, then `b`. -/
theorem translate_double (a b : List Char) (ha : '*' ∉ a) (hb : '*' ∉ b)
    (hb0 : b.head? ≠ some '/') :
    translate (a ++ '*' :: '*' :: b) = a.map Tok.lit ++ Tok.gs :: b.map Tok.lit := by
  have hstar : ∀ r', b ≠ '*' :: '/' :: r' :=
    fun r' he => hb (he ▸ List.mem_cons_self _ _)
  unfold translate
  rw [pass1_append_lits a _ ha, pass1_cons_star2 b hb0, pass1_cons_star b hstar,
    pass1_lits b hb, pass2_append_of _ _ (lit_star_notMem_map a ha),
    show pass2 (Tok.lit '*' :: Tok.lit '*' :: b.map Tok.lit)
        = Tok.gs :: pass2 (b.map Tok.lit) from rfl,
    pass2_lits _ (lit_star_notMem_map b hb), pass3_append,
    pass3_of_no_star _ (lit_star_notMem_map a ha), pass3_cons_gs,
    pass3_of_no_star _ (lit_star_notMem_map b hb)]

/-- The regex for `**/p` (`p` star-free) is `(.*/)?`, then `p`. -/
theorem translate_gsSlash (p : List Char) (hp : '*' ∉ p) :
    translate ('*' :: '*' :: '/' :: p) = Tok.gsSlash :: p.map Tok.lit := by
  unfold translate
  rw [show pass1 ('*' :: '*' :: '/' :: p) = Tok.gsSlash :: pass1 p from rfl,
    pass1_lits p hp, pass2_cons_of_ne _ _ (by simp),
    pass2_lits _ (lit_star_notMem_map p hp), pass3_cons_gsSlash,
    pass3_of_no_star _ (lit_star_notMem_map p hp)]

/-! ## Helper lemmas (C8): semantics of the regex fragments -/

theorem anySplit_iff (p q : List Char → Bool) (s : List Char) :
    anySplit p q s = true ↔ ∃ a b, s = a ++ b ∧ p a = true ∧ q b = true := by
  unfold anySplit
  rw [List.any_eq_true]
  constructor
  · rintro ⟨n, _, hpq⟩
    rw [Bool.and_eq_true] at hpq
    exact ⟨s.take n, s.drop n, (List.take_append_drop n s).symm, hpq.1, hpq.2⟩
  · rintro ⟨a, b, rfl, hp, hq⟩
    refine ⟨a.length, ?_, ?_⟩
    · rw [List.mem_range, List.length_append]; omega
    · rw [Bool.and_eq_true, List.take_left, List.drop_left]
      exact ⟨hp, hq⟩

theorem toksMatch_nil_iff (s : List Char) : toksMatch [] s = true ↔ s = [] := by
  simp [toksMatch]

theorem toksMatch_cons_iff (t : Tok) (ts : List Tok) (s : List Char) :
    toksMatch (t :: ts) s = true
      ↔ ∃ a b, s = a ++ b ∧ tokMatch t a = true ∧ toksMatch ts b = true :=
  anySplit_iff _ _ _

theorem toksMatch_lits_iff (a s : List Char) :
    toksMatch (a.map Tok.lit) s = true ↔ s = a := by
  induction a generalizing s with
  | nil => simpa using toksMatch_nil_iff s
  | cons c a ih =>
    rw [List.map_cons, toksMatch_cons_iff]
    constructor
    · rintro ⟨u, v, rfl, hu, hv⟩
      have hu' : u = [c] := by simpa [tokMatch] using hu
      rw [hu', (ih v).mp hv]; rfl
    · rintro rfl
      exact ⟨[c], a, rfl, by simp [tokMatch], (ih a).mpr rfl⟩

theorem toksMatch_append_iff (xs ys : List Tok) (s : List Char) :
    toksMatch (xs ++ ys) s = true
      ↔ ∃ u v, s = u ++ v ∧ toksMatch xs u = true ∧ toksMatch ys v = true := by
  induction xs generalizing s with
  | nil =>
    simp only [List.nil_append]
    constructor
    · intro h; exact ⟨[], s, rfl, rfl, h⟩
    · rintro ⟨u, v, rfl, hu, hv⟩
      have hu' : u = [] := (toksMatch_nil_iff u).mp hu
      subst hu'; simpa using hv
  | cons t xs ih =>
    rw [List.cons_append, toksMatch_cons_iff]
    constructor
    · rintro ⟨a, b, rfl, ht, hb⟩
      rcases (ih b).mp hb with ⟨u, v, rfl, hu, hv⟩
      exact ⟨a ++ u, v, by rw [List.append_assoc],
        (toksMatch_cons_iff ..).mpr ⟨a, u, rfl, ht, hu⟩, hv⟩
    · rintro ⟨u, v, rfl, hu, hv⟩
      rcases (toksMatch_cons_iff ..).mp hu with ⟨a, b, rfl, ht, hb⟩
      exact ⟨a, b ++ v, by rw [List.append_assoc], ht,
        (ih (b ++ v)).mpr ⟨b, v, rfl, hb, hv⟩⟩

theorem tokMatch_starNS_iff (s : List Char) :
    tokMatch Tok.starNS s = true ↔ ∀ x ∈ s, x ≠ '/' := by
  simp [tokMatch]

theorem boundL_iff (u : List Char) :
    boundL u = true ↔ u = [] ∨ ∃ u', u = u' ++ ['/'] := by
  rcases List.eq_nil_or_concat u with rfl | ⟨u', a, rfl⟩
  · simp [boundL]
  · rw [List.concat_eq_append]
    constructor
    · intro h
      have ha : a = '/' := by simpa [boundL, List.reverse_append] using h
      exact Or.inr ⟨u', by rw [ha]⟩
    · rintro (h | ⟨u'', he⟩)
      · exact absurd h (by simp)
      · have ha : a = '/' := by
          have h2 := (List.append_inj' he rfl).2
          injection h2
        simp [boundL, List.reverse_append, ha]

theorem boundR_iff (w : List Char) :
    boundR w = true ↔ w = [] ∨ ∃ w', w = '/' :: w' := by
  cases w with
  | nil => simp [boundR]
  | cons c w' =>
    constructor
    · intro h
      have hc : c = '/' := by simpa [boundR] using h
      exact Or.inr ⟨w', by rw [hc]⟩
    · rintro (h | ⟨w'', he⟩)
      · exact absurd h (by simp)
      · injection he with h1 _
        simp [boundR, h1]

theorem rxTest_iff (toks : List Tok) (s : List Char) :
    rxTest toks s = true
      ↔ ∃ u v w, s = u ++ v ++ w ∧ boundL u = true ∧ toksMatch toks v = true
          ∧ boundR w = true := by
  unfold rxTest
  rw [anySplit_iff]
  constructor
  · rintro ⟨u, rest, rfl, hu, hrest⟩
    rcases (anySplit_iff _ _ _).mp hrest with ⟨v, w, rfl, hv, hw⟩
    exact ⟨u, v, w, by rw [List.append_assoc], hu, hv, hw⟩
  · rintro ⟨u, v, w, rfl, hu, hv, hw⟩
    exact ⟨u, v ++ w, by rw [List.append_assoc], hu,
      (anySplit_iff _ _ _).mpr ⟨v, w, rfl, hv, hw⟩⟩

theorem isInfix_iff (pat s : List Char) :
    isInfix pat s = true ↔ ∃ u v, s = u ++ pat ++ v := by
  induction s with
  | nil =>
    constructor
    · intro h
      have hpat : pat = [] := by
        cases pat with
        | nil => rfl
        | cons c p => simp [isInfix, List.isPrefixOf] at h
      exact ⟨[], [], by simp [hpat]⟩
    · rintro ⟨u, v, he⟩
      have := congrArg List.length he
      simp [List.length_append] at this
      have hpat : pat = [] := List.eq_nil_of_length_eq_zero (by omega)
      simp [isInfix, hpat, List.isPrefixOf]
  | cons c s' ih =>
    rw [show isInfix pat (c :: s')
        = (pat.isPrefixOf (c :: s') || isInfix pat s') from rfl,
      Bool.or_eq_true, ih]
    constructor
    · rintro (h | ⟨u, v, rfl⟩)
      · rcases List.isPrefixOf_iff_prefix.mp h with ⟨t, ht⟩
        exact ⟨[], t, by simpa using ht.symm⟩
      · exact ⟨c :: u, v, rfl⟩
    · rintro ⟨u, v, he⟩
      cases u with
      | nil =>
        left
        exact List.isPrefixOf_iff_prefix.mpr ⟨v, by simpa using he.symm⟩
      | cons c' u' =>
        right
        injection he with _ h2
        exact ⟨u', v, h2⟩

theorem normalizeSep_eq_self (s : List Char) (h : '\\' ∉ s) : normalizeSep s = s := by
  unfold normalizeSep
  rw [List.map_congr_left fun c hc => if_neg fun (he : c = '\\') => h (he ▸ hc)]
  simp

/-! ## C8: the exclusion matcher's literal and glob semantics -/

/-- C8: `matchesPattern` is a pure function of the path and pattern list
such that (i) a pattern without a wildcard matches exactly the paths equal
to it, having it as a prefix followed by a separator, containing it as a
middle segment, or ending in it after a separator; (ii) a single `*` in a
glob pattern spans only characters within one path segment (never a
separator); (iii) `**` spans arbitrary characters across segments; and
(iv) `**/` also matches the empty prefix, so `**/p` matches `p` at the
root.  Paths are separator-normalised (no backslashes) and glob contexts
are literal (no `*`; no `?`, which the source's escaping leaves unescaped). -/
theorem matchesPattern_spec :
    (∀ (s pat : List Char), '*' ∉ pat → '\\' ∉ s →
      (matchesPattern s [pat] = true ↔
        (s = pat ∨ (∃ t, s = pat ++ '/' :: t)
          ∨ (∃ u v, s = u ++ '/' :: (pat ++ '/' :: v))
          ∨ (∃ u, s = u ++ '/' :: pat))))
    ∧ (∀ (a b s : List Char), '*' ∉ a → '*' ∉ b → '?' ∉ a → '?' ∉ b → '\\' ∉ s →
        (matchesPattern s [a ++ '*' :: b] = true ↔
          ∃ u m w, s = u ++ (a ++ m ++ b) ++ w ∧ (∀ x ∈ m, x ≠ '/')
            ∧ (u = [] ∨ ∃ u', u = u' ++ ['/'])
            ∧ (w = [] ∨ ∃ w', w = '/' :: w')))
    ∧ (∀ (a b s : List Char), '*' ∉ a → '*' ∉ b → '?' ∉ a → '?' ∉ b →
        b.head? ≠ some '/' → '\\' ∉ s →
        (matchesPattern s [a ++ '*' :: '*' :: b] = true ↔
          ∃ u m w, s = u ++ (a ++ m ++ b) ++ w
            ∧ (u = [] ∨ ∃ u', u = u' ++ ['/'])
            ∧ (w = [] ∨ ∃ w', w = '/' :: w')))
    ∧ (∀ p : List Char, '*' ∉ p → '?' ∉ p → '\\' ∉ p →
        matchesPattern p ['*' :: '*' :: '/' :: p] = true) := by
  refine ⟨?_, ?_, ?_, ?_⟩
  · intro s pat hstar hbs
    have hc : ¬(pat.contains '*' = true) := by simpa [List.contains] using hstar
    simp only [matchesPattern, List.any_cons, List.any_nil, Bool.or_false]
    rw [normalizeSep_eq_self s hbs, if_neg hc]
    have h2 : (pat ++ ['/']).isPrefixOf s = true ↔ ∃ t, s = pat ++ '/' :: t := by
      rw [List.isPrefixOf_iff_prefix]
      constructor
      · rintro ⟨t, ht⟩
        exact ⟨t, by rw [← ht, List.append_assoc]; rfl⟩
      · rintro ⟨t, rfl⟩
        exact ⟨t, by rw [List.append_assoc]; rfl⟩
    have h3 : isInfix (('/' :: pat) ++ ['/']) s = true
        ↔ ∃ u v, s = u ++ '/' :: (pat ++ '/' :: v) := by
      rw [isInfix_iff]
      constructor
      · rintro ⟨u, v, rfl⟩
        exact ⟨u, v, by simp⟩
      · rintro ⟨u, v, rfl⟩
        exact ⟨u, v, by simp⟩
    have h4 : ('/' :: pat).isSuffixOf s = true ↔ ∃ u, s = u ++ '/' :: pat := by
      rw [List.isSuffixOf_iff_suffix]
      constructor
      · rintro ⟨u, hu⟩
        exact ⟨u, hu.symm⟩
      · rintro ⟨u, rfl⟩
        exact ⟨u, rfl⟩
    simp only [litMatch, Bool.or_eq_true, beq_iff_eq]
    rw [h2, h3, h4, or_assoc, or_assoc]
  · intro a b s ha hb _ _ hbs
    have hcontains : (a ++ '*' :: b).contains '*' = true := by simp [List.contains]
    simp only [matchesPattern, List.any_cons, List.any_nil, Bool.or_false]
    rw [normalizeSep_eq_self s hbs, if_pos hcontains,
      translate_single a b ha hb, rxTest_iff]
    constructor
    · rintro ⟨u, v, w, rfl, hu, hv, hw⟩
      rcases (toksMatch_append_iff _ _ _).mp hv with ⟨x, y, rfl, hx, hy⟩
      have hx' : x = a := (toksMatch_lits_iff _ _).mp hx
      rcases (toksMatch_cons_iff _ _ _).mp hy with ⟨m, z, rfl, hm, hz⟩
      have hz' : z = b := (toksMatch_lits_iff _ _).mp hz
      subst hx'; subst hz'
      exact ⟨u, m, w, by simp, (tokMatch_starNS_iff m).mp hm,
        (boundL_iff u).mp hu, (boundR_iff w).mp hw⟩
    · rintro ⟨u, m, w, rfl, hm, hu, hw⟩
      refine ⟨u, a ++ m ++ b, w, by simp, (boundL_iff u).mpr hu, ?_,
        (boundR_iff w).mpr hw⟩
      refine (toksMatch_append_iff _ _ _).mpr
        ⟨a, m ++ b, by simp, (toksMatch_lits_iff _ _).mpr rfl, ?_⟩
      exact (toksMatch_cons_iff _ _ _).mpr
        ⟨m, b, rfl, (tokMatch_starNS_iff m).mpr hm, (toksMatch_lits_iff _ _).mpr rfl⟩
  · intro a b s ha hb _ _ hb0 hbs
    have hcontains : (a ++ '*' :: '*' :: b).contains '*' = true := by
      simp [List.contains]
    simp only [matchesPattern, List.any_cons, List.any_nil, Bool.or_false]
    rw [normalizeSep_eq_self s hbs, if_pos hcontains,
      translate_double a b ha hb hb0, rxTest_iff]
    constructor
    · rintro ⟨u, v, w, rfl, hu, hv, hw⟩
      rcases (toksMatch_append_iff _ _ _).mp hv with ⟨x, y, rfl, hx, hy⟩
      have hx' : x = a := (toksMatch_lits_iff _ _).mp hx
      rcases (toksMatch_cons_iff _ _ _).mp hy with ⟨m, z, rfl, _, hz⟩
      have hz' : z = b := (toksMatch_lits_iff _ _).mp hz
      subst hx'; subst hz'
      exact ⟨u, m, w, by simp, (boundL_iff u).mp hu, (boundR_iff w).mp hw⟩
    · rintro ⟨u, m, w, rfl, hu, hw⟩
      refine ⟨u, a ++ m ++ b, w, by simp, (boundL_iff u).mpr hu, ?_,
        (boundR_iff w).mpr hw⟩
      refine (toksMatch_append_iff _ _ _).mpr
        ⟨a, m ++ b, by simp, (toksMatch_lits_iff _ _).mpr rfl, ?_⟩
      exact (toksMatch_cons_iff _ _ _).mpr
        ⟨m, b, rfl, rfl, (toksMatch_lits_iff _ _).mpr rfl⟩
  · intro p hp _ hbs
    have hcontains : ('*' :: '*' :: '/' :: p).contains '*' = true := by
      simp [List.contains]
    simp only [matchesPattern, List.any_cons, List.any_nil, Bool.or_false]
    rw [normalizeSep_eq_self p hbs, if_pos hcontains, translate_gsSlash p hp]
    exact (rxTest_iff _ _).mpr ⟨[], p, [], by simp, rfl,
      (toksMatch_cons_iff _ _ _).mpr ⟨[], p, rfl, rfl,
        (toksMatch_lits_iff _ _).mpr rfl⟩, rfl⟩

theorem matchesPattern_spec_witness :
    (('*' ∉ "node_modules".toList ∧ '\\' ∉ "node_modules/a.js".toList)
      ∧ (matchesPattern "node_modules/a.js".toList ["node_modules".toList] = true ↔
          ("node_modules/a.js".toList = "node_modules".toList
            ∨ (∃ t, "node_modules/a.js".toList = "node_modules".toList ++ '/' :: t)
            ∨ (∃ u v, "node_modules/a.js".toList
                = u ++ '/' :: ("node_modules".toList ++ '/' :: v))
            ∨ (∃ u, "node_modules/a.js".toList = u ++ '/' :: "node_modules".toList))))
    ∧ matchesPattern "a.log".toList ['*' :: '*' :: '/' :: "a.log".toList] = true :=
  ⟨⟨⟨by decide, by decide⟩,
      matchesPattern_spec.1 "node_modules/a.js".toList "node_modules".toList
        (by decide) (by decide)⟩,
    matchesPattern_spec.2.2.2 "a.log".toList (by decide) (by decide) (by decide)⟩

/-! ## C5: retention removes exactly the old snapshots and their blobs -/

/-- C5: `cleanOldSnapshots(maxAgeDays)` removes from the index exactly the
snapshots with `timestamp < now − maxAgeDays`, deletes each removed
snapshot's existing blob files, returns `freedBytes` equal to the sum of
those blobs' on-disk sizes and `removed` equal to the number of snapshots
removed, and leaves every newer snapshot and its blobs untouched.  The two
hypotheses record the blob-naming well-formedness `createSnapshot`
guarantees: blob filenames are prefixed with their snapshot's timestamp, so
the removed names repeat neither each other nor a surviving snapshot's. -/
theorem cleanOldSnapshots_spec (idx : BackupIndex) (blobs : FileMap)
    (now maxAgeDays : Int)
    (hnodup :
      (oldBlobNames idx.snapshots (now - maxAgeDays * (24 * 60 * 60 * 1000))).Nodup)
    (hdisj : ∀ s ∈ idx.snapshots.filter
        (fun s => ¬ s.timestamp < now - maxAgeDays * (24 * 60 * 60 * 1000)),
      ∀ f ∈ s.files, f.backupPath ∉
        oldBlobNames idx.snapshots (now - maxAgeDays * (24 * 60 * 60 * 1000))) :
    (cleanOldSnapshots idx blobs now maxAgeDays).2.1.snapshots
        = idx.snapshots.filter
            (fun s => ¬ s.timestamp < now - maxAgeDays * (24 * 60 * 60 * 1000))
    ∧ (cleanOldSnapshots idx blobs now maxAgeDays).1.removed
        = (idx.snapshots.filter
            (fun s => s.timestamp < now - maxAgeDays * (24 * 60 * 60 * 1000))).length
    ∧ (cleanOldSnapshots idx blobs now maxAgeDays).1.freedBytes
        = blobSizes blobs
            (oldBlobNames idx.snapshots (now - maxAgeDays * (24 * 60 * 60 * 1000)))
    ∧ (∀ bp ∈ oldBlobNames idx.snapshots (now - maxAgeDays * (24 * 60 * 60 * 1000)),
        (cleanOldSnapshots idx blobs now maxAgeDays).2.2 bp = none)
    ∧ (∀ bp, bp ∉ oldBlobNames idx.snapshots (now - maxAgeDays * (24 * 60 * 60 * 1000)) →
        (cleanOldSnapshots idx blobs now maxAgeDays).2.2 bp = blobs bp)
    ∧ (∀ s ∈ idx.snapshots.filter
          (fun s => ¬ s.timestamp < now - maxAgeDays * (24 * 60 * 60 * 1000)),
        ∀ f ∈ s.files,
          (cleanOldSnapshots idx blobs now maxAgeDays).2.2 f.backupPath
            = blobs f.backupPath) := by
  obtain ⟨c1, c2, c3, c4, c5⟩ :=
    cleanFold_spec (now - maxAgeDays * (24 * 60 * 60 * 1000)) idx.snapshots
      [] 0 blobs 0 hnodup
  refine ⟨?_, ?_, ?_, ?_, ?_, ?_⟩
  · simpa using c1
  · simpa using c2
  · simpa using c3
  · exact c4
  · exact c5
  · intro s hs f hf
    exact c5 f.backupPath (hdisj s hs f hf)

theorem cleanOldSnapshots_spec_witness :
    ((oldBlobNames [⟨['s'], 0, [⟨['a'], ['b'], 3, .delete, none⟩], none⟩,
        ⟨['t'], 86400000, [⟨['a'], ['c'], 1, .change, none⟩], none⟩] 1).Nodup
      ∧ (∀ s ∈ ([⟨['s'], 0, [⟨['a'], ['b'], 3, .delete, none⟩], none⟩,
            ⟨['t'], 86400000, [⟨['a'], ['c'], 1, .change, none⟩], none⟩] :
              List Snapshot).filter (fun s => ¬ s.timestamp < 1),
          ∀ f ∈ s.files, f.backupPath ∉
            oldBlobNames [⟨['s'], 0, [⟨['a'], ['b'], 3, .delete, none⟩], none⟩,
              ⟨['t'], 86400000, [⟨['a'], ['c'], 1, .change, none⟩], none⟩] 1))
    ∧ (cleanOldSnapshots
        ⟨2, [⟨['s'], 0, [⟨['a'], ['b'], 3, .delete, none⟩], none⟩,
          ⟨['t'], 86400000, [⟨['a'], ['c'], 1, .change, none⟩], none⟩]⟩
        (fun p => if p = ['b'] then some [1, 2, 3] else
          if p = ['c'] then some [4] else none) 86400001 1).1.freedBytes
      = blobSizes
          (fun p => if p = ['b'] then some [1, 2, 3] else
            if p = ['c'] then some [4] else none)
          (oldBlobNames [⟨['s'], 0, [⟨['a'], ['b'], 3, .delete, none⟩], none⟩,
            ⟨['t'], 86400000, [⟨['a'], ['c'], 1, .change, none⟩], none⟩]
            (86400001 - 1 * (24 * 60 * 60 * 1000))) := by
  refine ⟨⟨by decide, by decide⟩, ?_⟩
  exact (cleanOldSnapshots_spec
    ⟨2, [⟨['s'], 0, [⟨['a'], ['b'], 3, .delete, none⟩], none⟩,
      ⟨['t'], 86400000, [⟨['a'], ['c'], 1, .change, none⟩], none⟩]⟩
    (fun p => if p = ['b'] then some [1, 2, 3] else
      if p = ['c'] then some [4] else none) 86400001 1
    (by decide) (by decide)).2.2.1

/-! ## C4: restore is idempotent on the workspace -/

theorem mapRemove_of_none (ws : FileMap) (p : Path) (h : ws p = none) :
    mapRemove ws p = ws := by
  funext q
  by_cases hq : q = p <;> simp [mapRemove, hq, h.symm]

theorem applyOps_append (xs ys : List WsOp) (ws : FileMap) :
    applyOps (xs ++ ys) ws = applyOps ys (applyOps xs ws) := by
  simp [applyOps, List.foldl_append]

theorem restoreEntry_ws (blobs : FileMap) (acc : RestoreResult × FileMap)
    (f : SnapshotFile) :
    (restoreEntry blobs acc f).2 = applyOps (entryOps blobs f) acc.2 := by
  obtain ⟨counts, ws⟩ := acc
  cases hev : f.eventType
  case change | delete =>
    rcases hb : blobs f.backupPath with _ | b <;>
      simp [restoreEntry, entryOps, applyOps, applyOp, hev, hb]
  case rename =>
    rcases hr : f.renamedTo with _ | r
    · simp [restoreEntry, entryOps, applyOps, hev, hr]
    · rcases hb : blobs f.backupPath with _ | b
      · rcases hws : ws r with _ | x
        · simp [restoreEntry, entryOps, applyOps, applyOp, hev, hr, hb, hws,
            mapRemove_of_none ws r hws]
        · simp [restoreEntry, entryOps, applyOps, applyOp, hev, hr, hb, hws]
      · rcases hws : ws r with _ | x
        · simp [restoreEntry, entryOps, applyOps, applyOp, hev, hr, hb, hws,
            mapRemove_of_none ws r hws]
        · simp [restoreEntry, entryOps, applyOps, applyOp, hev, hr, hb, hws]
  case create =>
    rcases hws : ws f.path with _ | x
    · simp [restoreEntry, entryOps, applyOps, applyOp, hev, hws,
        mapRemove_of_none ws f.path hws]
    · simp [restoreEntry, entryOps, applyOps, applyOp, hev, hws]

theorem foldl_restoreEntry_ws (blobs : FileMap) (files : List SnapshotFile) :
    ∀ acc : RestoreResult × FileMap,
      (files.foldl (restoreEntry blobs) acc).2
        = applyOps (files.flatMap (entryOps blobs)) acc.2 := by
  induction files with
  | nil => intro acc; rfl
  | cons f files ih =>
    intro acc
    rw [List.foldl_cons, List.flatMap_cons, applyOps_append, ih,
      restoreEntry_ws blobs acc f]

theorem applyOps_char (ops : List WsOp) (ws : FileMap) (p : Path) :
    applyOps ops ws p
      = match ops.reverse.find? (fun op => opPath op = p) with
        | some (.set _ b) => some b
        | some (.del _) => none
        | none => ws p := by
  induction ops generalizing ws with
  | nil => rfl
  | cons op ops ih =>
    rw [show applyOps (op :: ops) ws = applyOps ops (applyOp ws op) from rfl, ih,
      List.reverse_cons, List.find?_append]
    rcases hfind : ops.reverse.find? (fun op => opPath op = p) with _ | o
    · by_cases hp : opPath op = p
      · rcases op with ⟨q, b⟩ | q <;> simp only [opPath] at hp <;> subst hp <;>
          simp [applyOp, mapSet, mapRemove, List.find?_cons, opPath, Option.none_or]
      · rcases op with ⟨q, b⟩ | q <;> simp only [opPath] at hp <;>
          simp [applyOp, mapSet, mapRemove, List.find?_cons, opPath, hp, Ne.symm hp,
            Option.none_or]
    · rcases o with ⟨q, b⟩ | q <;> simp

theorem applyOps_idem (ops : List WsOp) (ws : FileMap) :
    applyOps ops (applyOps ops ws) = applyOps ops ws := by
  funext p
  rcases hfind : ops.reverse.find? (fun op => opPath op = p) with _ | o
  · rw [applyOps_char, hfind, applyOps_char, hfind]
  · rcases o with ⟨q, b⟩ | q <;>
      · rw [applyOps_char, hfind]
        conv_rhs => rw [applyOps_char, hfind]

/-- C4: for every snapshot in the index and every starting workspace state,
running `restoreSnapshot` twice in succession leaves the workspace in
exactly the state of running it once. -/
theorem restoreSnapshot_idempotent (idx : BackupIndex) (blobs ws : FileMap)
    (sid : List Char) (_h : ∃ s ∈ idx.snapshots, s.id = sid) :
    (restoreSnapshot idx blobs (restoreSnapshot idx blobs ws sid).2.2 sid).2.2
      = (restoreSnapshot idx blobs ws sid).2.2 := by
  cases hfind : getSnapshotById idx sid with
  | none => simp [restoreSnapshot, hfind]
  | some snap =>
    simp only [restoreSnapshot, hfind]
    rw [foldl_restoreEntry_ws, foldl_restoreEntry_ws]
    exact applyOps_idem _ _

theorem restoreSnapshot_idempotent_witness :
    (∃ s ∈ ([⟨['s'], 1, [⟨['o'], ['b'], 1, .rename, some ['n']⟩], none⟩] :
        List Snapshot), s.id = ['s'])
    ∧ (restoreSnapshot ⟨2, [⟨['s'], 1, [⟨['o'], ['b'], 1, .rename, some ['n']⟩], none⟩]⟩
          (fun _ => some [104])
          (restoreSnapshot ⟨2, [⟨['s'], 1, [⟨['o'], ['b'], 1, .rename, some ['n']⟩], none⟩]⟩
            (fun _ => some [104]) (fun _ => some [9]) ['s']).2.2 ['s']).2.2
      = (restoreSnapshot ⟨2, [⟨['s'], 1, [⟨['o'], ['b'], 1, .rename, some ['n']⟩], none⟩]⟩
          (fun _ => some [104]) (fun _ => some [9]) ['s']).2.2 :=
  ⟨⟨_, List.mem_singleton.mpr rfl, rfl⟩,
    restoreSnapshot_idempotent _ _ _ _ ⟨_, List.mem_singleton.mpr rfl, rfl⟩⟩

/-! ## C6: a new appearance pairs with the first pending deletion -/

/-- C6: when a new path `N` appears (not itself a fresh rename target) while
pending-deletion entries for other paths exist within the grace window,
`handlePotentialRename` pairs the first such entry (in iteration order) with
`N`: it emits exactly one `rename` pending change carrying the old path, the
renamed-to path `N` and the old path's captured bytes, clears that
pending-deletion entry (and no other), and begins tracking `N`; and
`handleFileDelete` is what captured the disappeared path's pre-disappearance
bytes into its pending-deletion entry. -/
theorem handlePotentialRename_pairs :
    (∀ (fs : FileMap) (now : Int) (st : WatcherState) (newPath oldPath : Path)
        (c : Bytes) (t : Int),
      newPath ∉ st.recentlyRenamed →
      st.pendingRenames.find? (fun e => e.1 ≠ newPath) = some (oldPath, (c, t)) →
      jsMapGet (handlePotentialRename false fs now st newPath).pendingChanges oldPath
          = some ⟨oldPath, .rename, some c, some newPath⟩
      ∧ jsMapGet (handlePotentialRename false fs now st newPath).pendingRenames oldPath
          = none
      ∧ (∀ q, q ≠ oldPath →
          jsMapGet (handlePotentialRename false fs now st newPath).pendingRenames q
            = jsMapGet st.pendingRenames q)
      ∧ (∀ q, q ≠ oldPath →
          jsMapGet (handlePotentialRename false fs now st newPath).pendingChanges q
            = jsMapGet st.pendingChanges q)
      ∧ (∀ b, fs newPath = some b →
          jsMapGet (handlePotentialRename false fs now st newPath).trackedFiles newPath
            = some (b, now)))
    ∧ (∀ (latestBackup : Option (Bytes × Int)) (st : WatcherState) (p : Path)
        (c : Bytes) (t : Int),
        jsMapGet st.trackedFiles p = some (c, t) →
        jsMapGet (handleFileDelete latestBackup st p).pendingRenames p = some (c, t)) := by
  constructor
  · intro fs now st newPath oldPath c t hnew hfind
    refine ⟨?_, ?_, fun q hq => ?_, fun q hq => ?_, fun b hb => ?_⟩ <;>
      rcases hfs : fs newPath with _ | b' <;>
        simp_all [handlePotentialRename, addPendingChange, trackFile,
          jsMapGet_set_self, jsMapGet_set_ne, jsMapGet_delete_self, jsMapGet_delete_ne]
  · intro latestBackup st p c t htrk
    simp [handleFileDelete, htrk, jsMapGet_set_self]

theorem handlePotentialRename_pairs_witness :
    ((['n'] ∉ ([] : List Path)
        ∧ (([(['x'], ([7], 1))] : List (Path × (Bytes × Int))).find?
            (fun e => e.1 ≠ ['n'])) = some (['x'], ([7], 1)))
      ∧ jsMapGet (handlePotentialRename false (fun _ => some [5]) 9
          ⟨[(['x'], ([7], 1))], [(['x'], ([7], 1))], [], []⟩ ['n']).pendingChanges ['x']
        = some ⟨['x'], .rename, some [7], some ['n']⟩)
    ∧ (jsMapGet ([(['x'], ([7], 1))] : List (Path × (Bytes × Int))) ['x']
          = some ([7], 1)
      ∧ jsMapGet (handleFileDelete none
          ⟨[(['x'], ([7], 1))], [], [], []⟩ ['x']).pendingRenames ['x'] = some ([7], 1)) :=
  ⟨⟨⟨by decide, by decide⟩,
      (handlePotentialRename_pairs.1 (fun _ => some [5]) 9
        ⟨[(['x'], ([7], 1))], [(['x'], ([7], 1))], [], []⟩ ['n'] ['x'] [7] 1
        (by decide) (by decide)).1⟩,
    ⟨by decide,
      handlePotentialRename_pairs.2 none ⟨[(['x'], ([7], 1))], [], [], []⟩ ['x'] [7] 1
        (by decide)⟩⟩

/-! ## C2: change events copy the pre-event bytes -/

/-- C2: for every `change` event the backup method is `copy` (never
`hardlink`), and when the pre-event bytes were captured the blob written is
exactly those bytes. -/
theorem smartBackup_change (plat : List Char) (fs : OsFs) (cache : HCache)
    (src tgt : Path) (content : Option Bytes) (renamedTo : Option Path) :
    (smartBackup plat fs cache src tgt .change content renamedTo).1.method = .copy
    ∧ ∀ b, content = some b →
        (smartBackup plat fs cache src tgt .change content renamedTo).1
            = ⟨true, .copy, none⟩
        ∧ (smartBackup plat fs cache src tgt .change content renamedTo).2.1.files tgt
            = some b := by
  constructor
  · rcases content with _ | b
    · rcases hsf : fs.files src with _ | c <;>
        simp [smartBackup, backupFromBuffer, hsf]
    · simp [smartBackup, backupFromBuffer]
  · rintro b rfl
    simp [smartBackup, backupFromBuffer, mapSet]

theorem smartBackup_change_witness :
    (smartBackup "linux".toList ⟨fun _ => none, fun _ => 0, fun _ => true, []⟩ []
        "a.txt".toList "1_a.txt".toList .change (some [118, 49]) none).1.method = .copy
    ∧ ((some [118, 49] : Option Bytes) = some [118, 49] →
        (smartBackup "linux".toList ⟨fun _ => none, fun _ => 0, fun _ => true, []⟩ []
            "a.txt".toList "1_a.txt".toList .change (some [118, 49]) none).1
          = ⟨true, .copy, none⟩
        ∧ (smartBackup "linux".toList ⟨fun _ => none, fun _ => 0, fun _ => true, []⟩ []
            "a.txt".toList "1_a.txt".toList .change (some [118, 49]) none).2.1.files
            "1_a.txt".toList = some [118, 49]) :=
  ⟨(smartBackup_change _ _ _ _ _ _ _).1,
    (smartBackup_change "linux".toList ⟨fun _ => none, fun _ => 0, fun _ => true, []⟩ []
      "a.txt".toList "1_a.txt".toList (some [118, 49]) none).2 [118, 49]⟩

/-! ## C1: delete/rename events on the vault's device hardlink -/

theorem createHardlinkBackup_hardlink (plat : List Char) (fs : OsFs)
    (cache : HCache) (src tgt : Path)
    (hsrc : (fs.files src).isSome)
    (hdev : fs.dev src = fs.dev (dirname tgt))
    (hcache : cacheGet cache (fs.dev src) ≠ some false)
    (hlink : fs.linkOk (fs.dev src) = true) :
    (createHardlinkBackup plat fs cache src tgt).1 = ⟨true, .hardlink, none⟩ := by
  rcases hx : fs.files src with _ | c
  · rw [hx] at hsrc; simp at hsrc
  · rw [hdev] at hcache hlink
    simp [createHardlinkBackup, hx, hdev, hcache, hlink]

/-- C1: for every `delete` or `rename` event whose relevant file (the
original path, or for a rename the renamed-to path) still exists on the same
filesystem device as the vault — the device supporting hardlinks and not
being cached as hardlink-incapable — the backup uses the hardlink method,
not a copy. -/
theorem smartBackup_delete_rename_hardlink (plat : List Char) (fs : OsFs)
    (cache : HCache) (src tgt : Path) (ev : FileEventType)
    (content : Option Bytes) (renamedTo : Option Path)
    (hev : ev = .delete ∨ ev = .rename)
    (hrel : ((fs.files src).isSome ∧ fs.dev src = fs.dev (dirname tgt))
      ∨ (ev = .rename ∧ (fs.files src).isNone
          ∧ ∃ r, renamedTo = some r ∧ (fs.files r).isSome
              ∧ fs.dev r = fs.dev (dirname tgt)))
    (hcache : ∀ d, cacheGet cache d ≠ some false)
    (hlink : ∀ d, fs.linkOk d = true) :
    (smartBackup plat fs cache src tgt ev content renamedTo).1
      = ⟨true, .hardlink, none⟩ := by
  rcases hev with rfl | rfl
  · rcases hrel with ⟨hsrc, hdev⟩ | ⟨h, _⟩
    · simpa [smartBackup, hsrc] using
        createHardlinkBackup_hardlink plat fs cache src tgt hsrc hdev
          (hcache _) (hlink _)
    · exact absurd h (by simp)
  · rcases hrel with ⟨hsrc, hdev⟩ | ⟨_, hnone, r, hr, hrex, hrdev⟩
    · simpa [smartBackup, hsrc] using
        createHardlinkBackup_hardlink plat fs cache src tgt hsrc hdev
          (hcache _) (hlink _)
    · have hsrc' : (fs.files src).isSome = false := by
        simpa [Option.isNone_iff_eq_none] using hnone
      simpa [smartBackup, hsrc', hr, hrex] using
        createHardlinkBackup_hardlink plat fs cache r tgt hrex hrdev
          (hcache _) (hlink _)

theorem smartBackup_delete_rename_hardlink_witness :
    ((FileEventType.delete = .delete ∨ FileEventType.delete = .rename)
      ∧ (((⟨fun _ => some [104], fun _ => 7, fun _ => true, []⟩ : OsFs).files ['a']).isSome
          ∧ (⟨fun _ => some [104], fun _ => 7, fun _ => true, []⟩ : OsFs).dev ['a']
            = (⟨fun _ => some [104], fun _ => 7, fun _ => true, []⟩ : OsFs).dev (dirname ['v']))
      ∧ (∀ d, cacheGet [] d ≠ some false)
      ∧ (∀ d, (⟨fun _ => some [104], fun _ => 7, fun _ => true, []⟩ : OsFs).linkOk d = true))
    ∧ (smartBackup ['l'] ⟨fun _ => some [104], fun _ => 7, fun _ => true, []⟩ []
        ['a'] ['v'] .delete none none).1 = ⟨true, .hardlink, none⟩ := by
  refine ⟨⟨Or.inl rfl, ⟨rfl, rfl⟩, fun d => by simp [cacheGet], fun d => rfl⟩, ?_⟩
  exact smartBackup_delete_rename_hardlink ['l'] _ [] ['a'] ['v'] .delete none none
    (Or.inl rfl) (Or.inl ⟨rfl, rfl⟩) (fun d => by simp [cacheGet]) (fun d => rfl)

theorem restoreSnapshot_missing_id_witness :
    (∀ s ∈ ([⟨"snap_1".toList, 1, [], none⟩] : List Snapshot), s.id ≠ "snap_2".toList) ∧
    restoreSnapshot ⟨2, [⟨"snap_1".toList, 1, [], none⟩]⟩ (fun _ => none) (fun _ => none)
      "snap_2".toList = (⟨0, 0, 0⟩, ⟨2, [⟨"snap_1".toList, 1, [], none⟩]⟩, fun _ => none) :=
  ⟨by decide, restoreSnapshot_missing_id _ _ _ _ (by decide)⟩

end AgentShield
